import Mathlib

/-!
Verification development for the event-driven TCP multiplexer of
src/chapter05/server9.c: an epoll readiness loop (single producer) feeding
per-shard ring queues consumed by dedicated sender threads.

The definitions below are a shallow embedding of the C code:
machine integers become Nat/Int, the fixed-size arrays become lists or
index functions, and each C function or loop body becomes a Lean
definition whose doc comment cites the lines it embeds.
-/

/-- MAXQUEUESZ from server9.c line 49: capacity of each ring queue. -/
def MAXQUEUESZ : Nat := 4096

/-- MAXSENDER from server9.c line 53: number of sender threads / queues. -/
def MAXSENDER : Nat := 2

/-- MAX_CHILD from server9.c line 154: admission limit of the accept loop. -/
def MAX_CHILD : Nat := 20

/-- Size of the per-entry receive buffer, struct queue_data, line 64. -/
def BUFSZ : Nat := 512

/-- QUEUE_NEXT from server9.c line 56: next ring index, modulo capacity. -/
def QUEUE_NEXT (i : Nat) : Nat := (i + 1) % MAXQUEUESZ

/-- struct queue_data (lines 62-66): one completed read.  acc is the
connection descriptor, buf the received bytes, len the recv result. -/
structure queue_data where
  acc : Nat
  buf : List Nat
  len : Int
deriving DecidableEq, Inhabited

/-- struct queue (lines 73-79): ring buffer with consumer index front and
producer index last.  The mutex/cond fields have no sequential content. -/
structure queue where
  front : Nat
  last : Nat
  data : Nat → queue_data

/-- Zero-initialized global queue (line 82; g_queue is a zeroed global). -/
def emptyQueue : queue := { front := 0, last := 0, data := fun _ => default }

/-- Producer step, accept_loop lines 272-313: write the entry into the slot
at index last, then advance last with QUEUE_NEXT.  No fullness check is
performed by the code. -/
def enqueue (e : queue_data) (q : queue) : queue :=
  { q with data := fun j => if j = q.last then e else q.data j,
           last := QUEUE_NEXT q.last }

/-- Consumer step, send_thread lines 387-399: if last differs from front,
take the entry at front and advance front; otherwise wait (none). -/
def dequeue (q : queue) : Option (queue_data × queue) :=
  if q.last ≠ q.front then
    some (q.data q.front, { q with front := QUEUE_NEXT q.front })
  else
    none

/-- Enqueue a list of entries in order (repeated producer steps). -/
def enqueueAll (l : List queue_data) (q : queue) : queue :=
  l.foldl (fun s e => enqueue e s) q

theorem enqueueAll_nil (q : queue) : enqueueAll [] q = q := rfl

theorem enqueueAll_cons (e : queue_data) (l : List queue_data) (q : queue) :
    enqueueAll (e :: l) q = enqueueAll l (enqueue e q) := rfl

theorem enqueueAll_append (l₁ l₂ : List queue_data) (q : queue) :
    enqueueAll (l₁ ++ l₂) q = enqueueAll l₂ (enqueueAll l₁ q) :=
  List.foldl_append _ _ _ _

theorem enqueueAll_front (l : List queue_data) (q : queue) :
    (enqueueAll l q).front = q.front := by
  induction l generalizing q with
  | nil => rfl
  | cons e tl ih => rw [enqueueAll_cons, ih]; rfl

/-- Helper: two in-window offsets hitting the same ring slot are equal. -/
theorem mod_window_inj {C f a b : Nat} (hf : f < C) (ha : a < C) (hb : b < C)
    (h : (f + a) % C = (f + b) % C) : a = b := by
  rcases Nat.lt_or_ge (f + a) C with h1 | h1 <;>
    rcases Nat.lt_or_ge (f + b) C with h2 | h2
  · rw [Nat.mod_eq_of_lt h1, Nat.mod_eq_of_lt h2] at h; omega
  · rw [Nat.mod_eq_of_lt h1, Nat.mod_eq_sub_mod h2,
      Nat.mod_eq_of_lt (by omega)] at h; omega
  · rw [Nat.mod_eq_sub_mod h1, Nat.mod_eq_of_lt (by omega),
      Nat.mod_eq_of_lt h2] at h; omega
  · rw [Nat.mod_eq_sub_mod h1, Nat.mod_eq_of_lt (by omega),
      Nat.mod_eq_sub_mod h2, Nat.mod_eq_of_lt (by omega)] at h; omega

/-- Closed form for a run of producer steps that stays within one lap of
the ring: the slots from the starting index onward hold the pushed entries
and last advances by the number of pushes, modulo the capacity. -/
theorem enqueueAll_spec (l : List queue_data) (q : queue)
    (hlt : q.last < MAXQUEUESZ) (hle : q.last + l.length ≤ MAXQUEUESZ) :
    (enqueueAll l q).last = (q.last + l.length) % MAXQUEUESZ ∧
    ∀ j : Nat, (enqueueAll l q).data j =
      if q.last ≤ j ∧ j < q.last + l.length then l.getD (j - q.last) default
      else q.data j := by
  induction l generalizing q with
  | nil =>
    refine ⟨?_, ?_⟩
    · simp [enqueueAll_nil, Nat.mod_eq_of_lt hlt]
    · intro j
      have hnot : ¬ (q.last ≤ j ∧ j < q.last + ([] : List queue_data).length) := by
        rintro ⟨h1, h2⟩
        simp only [List.length_nil] at h2
        omega
      rw [enqueueAll_nil, if_neg hnot]
  | cons e tl ih =>
    rw [enqueueAll_cons]
    have hlen : q.last + (e :: tl).length = q.last + 1 + tl.length := by
      simp [List.length_cons]; omega
    by_cases hwrap : q.last + 1 < MAXQUEUESZ
    · have hq1 : (enqueue e q).last = q.last + 1 := by
        simp [enqueue, QUEUE_NEXT, Nat.mod_eq_of_lt hwrap]
      have hle1 : (enqueue e q).last + tl.length ≤ MAXQUEUESZ := by
        rw [hq1]; omega
      have := ih (enqueue e q) (by rw [hq1]; exact hwrap) hle1
      refine ⟨?_, ?_⟩
      · rw [this.1, hq1, hlen]
      · intro j
        rw [this.2 j, hq1]
        by_cases hj1 : q.last + 1 ≤ j ∧ j < q.last + 1 + tl.length
        · have hcond : q.last ≤ j ∧ j < q.last + (e :: tl).length := by
            simp only [List.length_cons]
            omega
          have hsub : j - q.last = (j - (q.last + 1)) + 1 := by omega
          rw [if_pos hj1, if_pos hcond, hsub, List.getD_cons_succ]
        · rw [if_neg hj1]
          by_cases hj2 : q.last ≤ j ∧ j < q.last + (e :: tl).length
          · have hje : j = q.last := by
              rcases hj2 with ⟨hL, hR⟩
              simp only [List.length_cons] at hR
              omega
            have hsub : j - q.last = 0 := by omega
            rw [if_pos hj2, hsub, List.getD_cons_zero, hje]
            simp [enqueue]
          · have hne : j ≠ q.last := by
              intro hcontra
              apply hj2
              constructor
              · omega
              · simp only [List.length_cons]; omega
            rw [if_neg hj2]
            simp [enqueue, hne]
    · have hlastC : q.last + 1 = MAXQUEUESZ := by omega
      have htl : tl.length = 0 := by
        simp only [List.length_cons] at hle; omega
      have htlnil : tl = [] := List.length_eq_zero.mp htl
      subst htlnil
      rw [enqueueAll_nil]
      refine ⟨?_, ?_⟩
      · have hlen1 : ([e] : List queue_data).length = 1 := rfl
        rw [hlen1]
        rfl
      · intro j
        by_cases hj : q.last ≤ j ∧ j < q.last + [e].length
        · have hje : j = q.last := by
            rcases hj with ⟨hL, hR⟩
            simp only [List.length_cons, List.length_nil] at hR
            omega
          have hsub : j - q.last = 0 := by omega
          rw [if_pos hj, hsub, List.getD_cons_zero, hje]
          simp [enqueue]
        · have hne : j ≠ q.last := by
            intro hcontra
            apply hj
            constructor
            · omega
            · simp only [List.length_cons, List.length_nil]; omega
          rw [if_neg hj]
          simp [enqueue, hne]

/-- First entry pushed in the overflow scenario for claim C1. -/
def entryA : queue_data := { acc := 0, buf := [65], len := 1 }

/-- Filler entry pushed repeatedly in the overflow scenario. -/
def entryB : queue_data := { acc := 2, buf := [66], len := 1 }

/-- The (capacity + 1)-th entry pushed in the overflow scenario. -/
def entryB2 : queue_data := { acc := 2, buf := [67], len := 1 }

/-- Exactly MAXQUEUESZ entries: entryA followed by 4095 copies of entryB. -/
def overflowFill : List queue_data :=
  entryA :: List.replicate (MAXQUEUESZ - 1) entryB

theorem overflowFill_length : overflowFill.length = MAXQUEUESZ := by
  rw [overflowFill, List.length_cons, List.length_replicate]
  decide

/-- Claim C1 (code defect): with 4096 entries enqueued and none dequeued,
front and last are both 0, slot 0 still holds the unconsumed first entry
entryA, and the 4097th enqueue silently overwrites that slot with a new
entry.  The producer thus publishes into a slot the consumer has not
vacated, contradicting the claimed invariant (accept_loop lines 272-314
perform no fullness check before writing at index last). -/
theorem c1_overflow_overwrites_unconsumed_slot :
    (enqueueAll overflowFill emptyQueue).front = 0 ∧
    (enqueueAll overflowFill emptyQueue).last =
      (enqueueAll overflowFill emptyQueue).front ∧
    (enqueueAll overflowFill emptyQueue).data 0 = entryA ∧
    (enqueue entryB2 (enqueueAll overflowFill emptyQueue)).data 0 = entryB2 ∧
    entryB2 ≠ entryA := by
  have h0 : emptyQueue.last = 0 := rfl
  have hlt : emptyQueue.last < MAXQUEUESZ := by rw [h0]; decide
  have hle : emptyQueue.last + overflowFill.length ≤ MAXQUEUESZ := by
    rw [h0, overflowFill_length]
    omega
  have hspec := enqueueAll_spec overflowFill emptyQueue hlt hle
  have hfront : (enqueueAll overflowFill emptyQueue).front = 0 :=
    enqueueAll_front _ _
  have hlast : (enqueueAll overflowFill emptyQueue).last = 0 := by
    rw [hspec.1, h0, overflowFill_length, Nat.zero_add, Nat.mod_self]
  have hdata0 : (enqueueAll overflowFill emptyQueue).data 0 = entryA := by
    rw [hspec.2 0]
    have hpos : 0 < MAXQUEUESZ := by decide
    have hcond : emptyQueue.last ≤ 0 ∧ 0 < emptyQueue.last + overflowFill.length := by
      rw [h0, overflowFill_length]
      exact ⟨Nat.le_refl 0, by omega⟩
    rw [if_pos hcond, h0]
    rfl
  refine ⟨hfront, by rw [hlast, hfront], hdata0, ?_, by decide⟩
  simp [enqueue, hlast]

/-- Length of the C string stored at the start of a byte buffer: the bytes
before the first NUL. -/
def strlist (l : List Nat) : List Nat := l.takeWhile (fun b => b != 0)

/-- Scan loop of mystrlcat, server9.c lines 337-340: advance through dst
while the byte is nonzero and fewer than size bytes have been seen;
returns the number of bytes skipped (dlen). -/
def scanDst : List Nat → Nat → Nat
  | [], _ => 0
  | _ :: _, 0 => 0
  | b :: rest, lest + 1 => if b = 0 then 0 else scanDst rest lest + 1

/-- mystrlcat, server9.c lines 329-365.  dst is the raw byte buffer at the
destination, src the bytes of the NUL-terminated source string (terminator
excluded, so a faithful source has no 0 byte), size the buffer bound.
The early return (lines 343-345) fires when the scan consumed size bytes;
otherwise src is copied up to position size-2 (lines 351-353), the tail up
to position size-1 is NUL-filled (lines 356-358), and the returned count
is dlen plus the full source length (lines 361-364). -/
def mystrlcat (dst src : List Nat) (size : Nat) : List Nat × Nat :=
  if size - scanDst dst size = 0 then
    (dst, scanDst dst size + src.length)
  else
    (dst.take (scanDst dst size) ++ src.take (size - 1 - scanDst dst size) ++
       List.replicate
         (size - scanDst dst size - (src.take (size - 1 - scanDst dst size)).length) 0 ++
       dst.drop size,
     scanDst dst size + src.length)

theorem take_takeWhile (p : Nat → Bool) (l : List Nat) :
    l.take (l.takeWhile p).length = l.takeWhile p := by
  induction l with
  | nil => rfl
  | cons b rest ih =>
    by_cases hp : p b
    · simp [List.takeWhile_cons, hp, ih]
    · simp [List.takeWhile_cons, hp]

theorem takeWhile_append_all (p : Nat → Bool) (A B : List Nat)
    (h : ∀ a ∈ A, p a = true) : (A ++ B).takeWhile p = A ++ B.takeWhile p := by
  induction A with
  | nil => rfl
  | cons a tl ih =>
    have ha : p a = true := h a (List.mem_cons_self a tl)
    simp only [List.cons_append, List.takeWhile_cons, ha, if_true]
    rw [ih (fun x hx => h x (List.mem_cons_of_mem a hx))]

/-- The scan loop returns the C-string length whenever dst is
NUL-terminated within its first size bytes. -/
theorem scanDst_of_term (dst : List Nat) (size : Nat)
    (h : (0 : Nat) ∈ dst.take size) :
    scanDst dst size = (strlist dst).length ∧ (strlist dst).length < size := by
  induction dst generalizing size with
  | nil => simp at h
  | cons b rest ih =>
    cases size with
    | zero => simp at h
    | succ s =>
      by_cases hb : b = 0
      · subst hb
        constructor
        · rfl
        · simp [strlist, List.takeWhile_cons]
      · have hb' : (b != 0) = true := by simp [hb]
        have hmem : (0 : Nat) ∈ rest.take s := by
          rcases List.mem_cons.mp (by simpa using h) with h0 | h0
          · exact absurd h0.symm hb
          · exact h0
        have := ih s hmem
        constructor
        · simp only [scanDst, hb, if_false]
          rw [this.1]
          simp [strlist, List.takeWhile_cons, hb']
        · simp only [strlist, List.takeWhile_cons, hb', if_true, List.length_cons]
          have := this.2
          simp only [strlist] at this
          omega

theorem take_strlist (l : List Nat) : l.take (strlist l).length = strlist l :=
  take_takeWhile _ l

theorem drop_len_append {α : Type} (A B : List α) (n : Nat)
    (h : A.length = n) : (A ++ B).drop n = B := by
  subst h
  exact List.drop_left A B

theorem take_len_append {α : Type} (A B : List α) (n : Nat)
    (h : A.length = n) : (A ++ B).take n = A := by
  subst h
  exact List.take_left A B

/-- Workhorse for mystrlcat: when dst is NUL-terminated within size bytes
and src is a NUL-free source string, the call writes only inside the first
size bytes, keeps the buffer NUL-terminated, stores the concatenation
truncated to size-1 content bytes, and reports dlen plus the source
length. -/
theorem mystrlcat_spec (dst src : List Nat) (size : Nat)
    (hsz : size ≤ dst.length) (hterm : (0 : Nat) ∈ dst.take size)
    (hsrc : (0 : Nat) ∉ src) :
    ((mystrlcat dst src size).1).length = dst.length ∧
    ((mystrlcat dst src size).1).drop size = dst.drop size ∧
    (0 : Nat) ∈ ((mystrlcat dst src size).1).take size ∧
    strlist (mystrlcat dst src size).1 = (strlist dst ++ src).take (size - 1) ∧
    (mystrlcat dst src size).2 = (strlist dst).length + src.length := by
  obtain ⟨hscan, hdlt⟩ := scanDst_of_term dst size hterm
  have hne : ¬ (size - (strlist dst).length = 0) := by omega
  have hout : (mystrlcat dst src size).1 =
      strlist dst ++ (src.take (size - 1 - (strlist dst).length) ++
        (List.replicate (size - (strlist dst).length -
            (src.take (size - 1 - (strlist dst).length)).length) 0 ++
          dst.drop size)) := by
    simp only [mystrlcat, hscan, if_neg hne, take_strlist, List.append_assoc]
  have hret : (mystrlcat dst src size).2 = (strlist dst).length + src.length := by
    simp only [mystrlcat, hscan, if_neg hne]
  have hclen : (src.take (size - 1 - (strlist dst).length)).length ≤
      size - 1 - (strlist dst).length := by
    rw [List.length_take]
    exact Nat.min_le_left _ _
  have hz : 1 ≤ size - (strlist dst).length -
      (src.take (size - 1 - (strlist dst).length)).length := by omega
  have hgroup : (mystrlcat dst src size).1 =
      (strlist dst ++ (src.take (size - 1 - (strlist dst).length) ++
        List.replicate (size - (strlist dst).length -
          (src.take (size - 1 - (strlist dst).length)).length) 0)) ++
      dst.drop size := by
    rw [hout]
    simp [List.append_assoc]
  have hPlen : (strlist dst ++ (src.take (size - 1 - (strlist dst).length) ++
      List.replicate (size - (strlist dst).length -
        (src.take (size - 1 - (strlist dst).length)).length) 0)).length = size := by
    simp only [List.length_append, List.length_replicate]
    omega
  refine ⟨?_, ?_, ?_, ?_, hret⟩
  · rw [hgroup]
    simp only [List.length_append, hPlen, List.length_drop]
    omega
  · rw [hgroup, drop_len_append _ _ _ hPlen]
  · rw [hgroup, take_len_append _ _ _ hPlen]
    refine List.mem_append.mpr (Or.inr (List.mem_append.mpr (Or.inr ?_)))
    exact List.mem_replicate.mpr ⟨by omega, rfl⟩
  · have hS : ∀ a ∈ strlist dst, (a != 0) = true := by
      intro a ha
      have h1 := List.mem_takeWhile_imp ha
      exact h1
    have hC : ∀ a ∈ src.take (size - 1 - (strlist dst).length), (a != 0) = true := by
      intro a ha
      exact bne_iff_ne.mpr (fun hcontra => hsrc (hcontra ▸ List.take_subset _ _ ha))
    rw [hout]
    show List.takeWhile (fun b => b != 0) _ = _
    rw [takeWhile_append_all _ _ _ hS, takeWhile_append_all _ _ _ hC]
    have hzrep : List.replicate (size - (strlist dst).length -
        (src.take (size - 1 - (strlist dst).length)).length) 0 =
        0 :: List.replicate (size - (strlist dst).length -
          (src.take (size - 1 - (strlist dst).length)).length - 1) 0 := by
      rw [← List.replicate_succ]
      congr 1
      omega
    rw [hzrep]
    have hstop : List.takeWhile (fun a => a != 0)
        ((0 : Nat) :: (List.replicate (size - (strlist dst).length -
          (src.take (size - 1 - (strlist dst).length)).length - 1) 0 ++
            dst.drop size)) = [] := by
      simp [List.takeWhile_cons]
    rw [List.cons_append, hstop, List.append_nil]
    rw [List.take_append_eq_append_take,
      List.take_of_length_le (by omega : (strlist dst).length ≤ size - 1)]

/-- Claim C10 (confirmed): for a destination NUL-terminated within its
first size bytes and a NUL-free source, mystrlcat writes only within
dst[0..size-1] (bytes from index size on are unchanged and the length is
preserved), leaves the buffer NUL-terminated within size bytes, makes the
stored string the original string followed by src truncated to size-1
content bytes, and returns the original string length plus the full
source length (server9.c lines 329-365). -/
theorem c10_mystrlcat_contract (dst src : List Nat) (size : Nat)
    (hsz : size ≤ dst.length) (hterm : (0 : Nat) ∈ dst.take size)
    (hsrc : (0 : Nat) ∉ src) :
    ((mystrlcat dst src size).1).length = dst.length ∧
    ((mystrlcat dst src size).1).drop size = dst.drop size ∧
    (0 : Nat) ∈ ((mystrlcat dst src size).1).take size ∧
    strlist (mystrlcat dst src size).1 = (strlist dst ++ src).take (size - 1) ∧
    (mystrlcat dst src size).2 = (strlist dst).length + src.length :=
  mystrlcat_spec dst src size hsz hterm hsrc

/-- Witness for claim C10 at dst = [104,0,99,7], src = [33,34], size = 3. -/
theorem c10_mystrlcat_contract_w :
    (3 ≤ ([104, 0, 99, 7] : List Nat).length ∧
      (0 : Nat) ∈ ([104, 0, 99, 7] : List Nat).take 3 ∧
      (0 : Nat) ∉ ([33, 34] : List Nat)) ∧
    (((mystrlcat [104, 0, 99, 7] [33, 34] 3).1).length =
        ([104, 0, 99, 7] : List Nat).length ∧
      ((mystrlcat [104, 0, 99, 7] [33, 34] 3).1).drop 3 =
        ([104, 0, 99, 7] : List Nat).drop 3 ∧
      (0 : Nat) ∈ ((mystrlcat [104, 0, 99, 7] [33, 34] 3).1).take 3 ∧
      strlist (mystrlcat [104, 0, 99, 7] [33, 34] 3).1 =
        (strlist [104, 0, 99, 7] ++ [33, 34]).take 2 ∧
      (mystrlcat [104, 0, 99, 7] [33, 34] 3).2 =
        (strlist [104, 0, 99, 7]).length + ([33, 34] : List Nat).length) :=
  ⟨⟨by decide, by decide, by decide⟩,
    c10_mystrlcat_contract [104, 0, 99, 7] [33, 34] 3 (by decide) (by decide)
      (by decide)⟩

/-- Bytes of the fixed response suffix appended by send_thread line 419-421:
":OK\r\n" = [58, 79, 75, 13, 10]. -/
def okSuffix : List Nat := [58, 79, 75, 13, 10]

/-- send_thread lines 405-410: the NUL store at index len makes the buffer
a C string holding the received bytes up to the first NUL, and the strpbrk
store then cuts that string at its first CR (13) or LF (10). -/
def workerMsg (payload : List Nat) : List Nat :=
  (payload.takeWhile (fun b => b != 0)).takeWhile (fun b => b != 13 && b != 10)

/-- send_thread lines 404-428: the bytes actually transmitted for one
dequeued payload.  The buffer holds workerMsg followed by its NUL
terminator (bytes past the terminator are modeled as zeros; mystrlcat
never reads past the terminator and NUL-fills what it leaves), mystrlcat
appends ":OK\r\n" bounded by the 512-byte buffer (line 419-421), and the
send transmits strlen bytes (lines 423-428). -/
def respond (payload : List Nat) : List Nat :=
  strlist (mystrlcat
    (workerMsg payload ++ List.replicate (BUFSZ - (workerMsg payload).length) 0)
    okSuffix BUFSZ).1

/-- Response shape asserted by claim C3: the received bytes themselves,
followed by the suffix and terminator (no truncation of the payload). -/
def claimedResponseNaive (payload : List Nat) : List Nat := payload ++ okSuffix

theorem takeWhile_comp (p q : Nat → Bool) (l : List Nat) :
    List.takeWhile p (List.takeWhile q l) =
      List.takeWhile (fun a => q a && p a) l := by
  induction l with
  | nil => rfl
  | cons b rest ih =>
    by_cases hq : q b <;> by_cases hp : p b <;>
      simp [List.takeWhile_cons, hq, hp, ih]

theorem strlist_replicate_zero (n : Nat) :
    strlist (List.replicate n 0) = [] := by
  cases n with
  | zero => rfl
  | succ m => simp [strlist, List.replicate_succ, List.takeWhile_cons]

theorem workerMsg_eq (payload : List Nat) :
    workerMsg payload =
      payload.takeWhile (fun b => b != 0 && (b != 13 && b != 10)) := by
  rw [workerMsg, takeWhile_comp]

theorem takeWhile_length_le (p : Nat → Bool) (l : List Nat) :
    (l.takeWhile p).length ≤ l.length := by
  induction l with
  | nil => simp
  | cons b rest ih =>
    by_cases hp : p b
    · simp only [List.takeWhile_cons, hp, if_true, List.length_cons]
      omega
    · have hp' : p b = false := by
        cases hpb : p b
        · rfl
        · exact absurd hpb hp
      simp only [List.takeWhile_cons, hp', Bool.false_eq_true, if_false,
        List.length_nil, List.length_cons]
      omega

theorem workerMsg_length_le (payload : List Nat) :
    (workerMsg payload).length ≤ payload.length := by
  rw [workerMsg_eq]
  exact takeWhile_length_le _ _

theorem workerMsg_all_nonzero (payload : List Nat) :
    ∀ a ∈ workerMsg payload, (a != 0) = true := by
  intro a ha
  rw [workerMsg_eq] at ha
  have h1 := List.mem_takeWhile_imp ha
  simp only [Bool.and_eq_true] at h1
  exact h1.1

/-- Claim C3, counterexample: for the received bytes "hello\r\n" the code
transmits "hello:OK\r\n", not the received bytes followed by ":OK\r\n";
the strpbrk cut (send_thread lines 408-410) mutates the transmitted
buffer, it is not confined to logging. -/
theorem c3_strip_affects_transmission_cex :
    respond [104, 101, 108, 108, 111, 13, 10] ≠
      claimedResponseNaive [104, 101, 108, 108, 111, 13, 10] := by
  decide

/-- Claim C3 as amended: the transmitted response is the received bytes
truncated at the first NUL, CR, or LF, followed by ":OK\r\n", the whole
capped at BUFSZ - 1 bytes; the CR/LF cut thus affects the transmitted
bytes themselves, not only the log line (send_thread lines 404-428). -/
theorem c3_response_shape (payload : List Nat) (h : payload.length < BUFSZ) :
    respond payload =
      (payload.takeWhile (fun b => b != 0 && (b != 13 && b != 10)) ++
        okSuffix).take (BUFSZ - 1) := by
  have hmlen : (workerMsg payload).length ≤ payload.length :=
    workerMsg_length_le payload
  have hBval : BUFSZ = 512 := rfl
  have hrep : 1 ≤ BUFSZ - (workerMsg payload).length := by omega
  have hBlen : (workerMsg payload ++
      List.replicate (BUFSZ - (workerMsg payload).length) 0).length = BUFSZ := by
    simp only [List.length_append, List.length_replicate]
    omega
  have hsz : BUFSZ ≤ (workerMsg payload ++
      List.replicate (BUFSZ - (workerMsg payload).length) 0).length := by
    rw [hBlen]
  have hterm : (0 : Nat) ∈ (workerMsg payload ++
      List.replicate (BUFSZ - (workerMsg payload).length) 0).take BUFSZ := by
    rw [List.take_of_length_le (by rw [hBlen])]
    refine List.mem_append.mpr (Or.inr ?_)
    exact List.mem_replicate.mpr ⟨by omega, rfl⟩
  have hsrc : (0 : Nat) ∉ okSuffix := by decide
  have hspec := mystrlcat_spec
    (workerMsg payload ++ List.replicate (BUFSZ - (workerMsg payload).length) 0)
    okSuffix BUFSZ hsz hterm hsrc
  have hSB : strlist (workerMsg payload ++
      List.replicate (BUFSZ - (workerMsg payload).length) 0) =
      workerMsg payload := by
    show List.takeWhile (fun b => b != 0) _ = _
    rw [takeWhile_append_all _ _ _ (workerMsg_all_nonzero payload)]
    have := strlist_replicate_zero (BUFSZ - (workerMsg payload).length)
    rw [strlist] at this
    rw [this, List.append_nil]
  rw [respond, hspec.2.2.2.1, hSB, workerMsg_eq]

/-- Witness for the amended claim C3 at the received bytes [104, 13]. -/
theorem c3_response_shape_w :
    ([104, 13] : List Nat).length < BUFSZ ∧
    respond [104, 13] =
      (([104, 13] : List Nat).takeWhile (fun b => b != 0 && (b != 13 && b != 10)) ++
        okSuffix).take (BUFSZ - 1) :=
  ⟨by decide, c3_response_shape [104, 13] (by decide)⟩

set_option maxRecDepth 10000 in
/-- Claim C7 (confirmed): the received bytes "hello\r\n" produce exactly
the transmitted bytes "hello:OK\r\n" (send_thread lines 404-428). -/
theorem c7_round_trip :
    respond [104, 101, 108, 108, 111, 13, 10] =
      [104, 101, 108, 108, 111, 58, 79, 75, 13, 10] := by
  decide

/-- Observable side effects of the accept loop on connections and on the
readiness registry (epoll instance). -/
inductive LoopAct where
  | closeConn (fd : Nat)
  | closeRegistry
  | registerConn (fd : Nat)
  | deregisterConn (fd : Nat)
deriving DecidableEq

/-- State of accept_loop (lines 161-324): the set of connection handles
currently registered with epoll, the count variable, and whether the loop
is still running (epoll_ctl failures make it return). -/
structure LoopState where
  registered : List Nat
  count : Nat
  alive : Bool
deriving DecidableEq

/-- External stimuli handled by one iteration of accept_loop: a new
connection is accepted (registerOk tells whether the later epoll_ctl ADD
succeeds), or recv on a registered connection returns 0 or an error. -/
inductive LoopEvent where
  | arrive (fd : Nat) (registerOk : Bool)
  | readEnd (fd : Nat)
deriving DecidableEq

/-- State at entry of the loop: count = 0 (line 195), nothing registered,
loop running. -/
def initLoop : LoopState := { registered := [], count := 0, alive := true }

/-- One iteration of accept_loop for one event, with its visible actions.
Arrival (lines 225-257): if count + 1 >= MAX_CHILD the connection is
closed and nothing else happens (lines 241-245); otherwise, if epoll_ctl
ADD succeeds the handle is registered and count incremented (lines
248-256); if epoll_ctl ADD fails the handle and the epoll instance are
closed and the loop returns (lines 250-255).  End of stream or recv error
on a registered handle (lines 281-302): the handle is removed from epoll,
closed, and count decremented. -/
def loopStepAct (s : LoopState) (e : LoopEvent) : LoopState × List LoopAct :=
  if s.alive = false then (s, []) else
  match e with
  | .arrive fd rok =>
      if s.count + 1 ≥ MAX_CHILD then
        (s, [LoopAct.closeConn fd])
      else if rok then
        ({ s with registered := fd :: s.registered, count := s.count + 1 },
         [LoopAct.registerConn fd])
      else
        ({ s with alive := false },
         [LoopAct.closeConn fd, LoopAct.closeRegistry])
  | .readEnd fd =>
      if fd ∈ s.registered then
        ({ s with registered := s.registered.erase fd, count := s.count - 1 },
         [LoopAct.deregisterConn fd, LoopAct.closeConn fd])
      else
        (s, [])

def loopStep (s : LoopState) (e : LoopEvent) : LoopState := (loopStepAct s e).1

def loopRun (evs : List LoopEvent) : LoopState := evs.foldl loopStep initLoop

theorem loopStepAct_dead (s : LoopState) (e : LoopEvent) (h : s.alive = false) :
    loopStepAct s e = (s, []) := by
  rw [loopStepAct.eq_def, if_pos h]

theorem loopStepAct_arrive (s : LoopState) (fd : Nat) (rok : Bool)
    (h : ¬ s.alive = false) :
    loopStepAct s (.arrive fd rok) =
      if s.count + 1 ≥ MAX_CHILD then
        (s, [LoopAct.closeConn fd])
      else if rok then
        ({ s with registered := fd :: s.registered, count := s.count + 1 },
         [LoopAct.registerConn fd])
      else
        ({ s with alive := false },
         [LoopAct.closeConn fd, LoopAct.closeRegistry]) := by
  rw [loopStepAct.eq_def, if_neg h]

theorem loopStepAct_readEnd (s : LoopState) (fd : Nat)
    (h : ¬ s.alive = false) :
    loopStepAct s (.readEnd fd) =
      if fd ∈ s.registered then
        ({ s with registered := s.registered.erase fd, count := s.count - 1 },
         [LoopAct.deregisterConn fd, LoopAct.closeConn fd])
      else
        (s, []) := by
  rw [loopStepAct.eq_def, if_neg h]

/-- Invariant of the loop state: count mirrors the number of registered
handles and stays strictly below MAX_CHILD. -/
def loopInv (s : LoopState) : Prop :=
  s.count = s.registered.length ∧ s.registered.length ≤ MAX_CHILD - 1

theorem loopStep_inv (s : LoopState) (e : LoopEvent) (h : loopInv s) :
    loopInv (loopStep s e) := by
  rcases h with ⟨hc, hb⟩
  rw [loopStep]
  by_cases halive : s.alive = false
  · rw [loopStepAct_dead s e halive]
    exact ⟨hc, hb⟩
  · cases e with
    | arrive fd rok =>
      rw [loopStepAct_arrive s fd rok halive]
      by_cases hfull : s.count + 1 ≥ MAX_CHILD
      · rw [if_pos hfull]
        exact ⟨hc, hb⟩
      · rw [if_neg hfull]
        by_cases hrok : rok = true
        · rw [if_pos hrok]
          refine ⟨?_, ?_⟩
          · simp [hc]
          · simp only [List.length_cons]
            have hMC : MAX_CHILD = 20 := rfl
            omega
        · rw [if_neg hrok]
          exact ⟨hc, hb⟩
    | readEnd fd =>
      rw [loopStepAct_readEnd s fd halive]
      by_cases hmem : fd ∈ s.registered
      · rw [if_pos hmem]
        refine ⟨?_, ?_⟩
        · have := List.length_erase_of_mem hmem
          simp only [this, hc]
        · have := List.length_erase_of_mem hmem
          simp only [this]
          omega
      · rw [if_neg hmem]
        exact ⟨hc, hb⟩

theorem loopRun_inv (evs : List LoopEvent) : loopInv (loopRun evs) := by
  rw [loopRun]
  have hgen : ∀ (l : List LoopEvent) (s : LoopState), loopInv s →
      loopInv (l.foldl loopStep s) := by
    intro l
    induction l with
    | nil => intro s hs; exact hs
    | cons e tl ih =>
      intro s hs
      exact ih (loopStep s e) (loopStep_inv s e hs)
  exact hgen evs initLoop ⟨rfl, by decide⟩

/-- Claim C2 as amended: at most MAX_CHILD - 1 = 19 connections are ever
registered simultaneously; an arrival while count + 1 < MAX_CHILD (count
at most 18) is registered and the counter incremented; an arrival while
count + 1 >= MAX_CHILD (count at least 19, which is still strictly below
MAX_CHILD = 20) is closed with no state change (accept_loop lines
240-257). -/
theorem c2_admission_bound (evs : List LoopEvent) (fd : Nat) (rok : Bool) :
    (loopRun evs).registered.length ≤ MAX_CHILD - 1 ∧
    ((loopRun evs).alive = true → (loopRun evs).count + 1 < MAX_CHILD →
      loopStepAct (loopRun evs) (.arrive fd true) =
        ({ loopRun evs with
            registered := fd :: (loopRun evs).registered,
            count := (loopRun evs).count + 1 },
         [LoopAct.registerConn fd])) ∧
    ((loopRun evs).count + 1 ≥ MAX_CHILD →
      (loopStepAct (loopRun evs) (.arrive fd rok)).1 = loopRun evs) := by
  refine ⟨(loopRun_inv evs).2, ?_, ?_⟩
  · intro halive hlt
    have hne : ¬ (loopRun evs).alive = false := by simp [halive]
    rw [loopStepAct_arrive _ _ _ hne, if_neg (by omega), if_pos rfl]
  · intro hge
    by_cases halive : (loopRun evs).alive = false
    · rw [loopStepAct_dead _ _ halive]
    · rw [loopStepAct_arrive _ _ _ halive, if_pos hge]

/-- Witness for the amended claim C2 on the empty history and handle 5. -/
theorem c2_admission_bound_w :
    (loopRun []).alive = true ∧ (loopRun []).count + 1 < MAX_CHILD ∧
    loopStepAct (loopRun []) (.arrive 5 true) =
      ({ loopRun [] with
          registered := 5 :: (loopRun []).registered,
          count := (loopRun []).count + 1 },
       [LoopAct.registerConn 5]) :=
  ⟨by decide, by decide,
    (c2_admission_bound [] 5 true).2.1 (by decide) (by decide)⟩

/-- Nineteen successful arrivals, filling the admission budget. -/
def nineteenArrivals : List LoopEvent :=
  (List.range (MAX_CHILD - 1)).map (fun k => LoopEvent.arrive k true)

/-- Claim C2, counterexample: after 19 admitted connections the
concurrency (19) is strictly below maxConcurrent = MAX_CHILD = 20, yet the
next arrival is rejected without registration and without incrementing the
counter, because accept_loop line 241 rejects already when
count + 1 >= MAX_CHILD. -/
theorem c2_admission_cex :
    (loopRun nineteenArrivals).count = MAX_CHILD - 1 ∧
    (loopRun nineteenArrivals).count < MAX_CHILD ∧
    (loopStepAct (loopRun nineteenArrivals) (.arrive 100 true)).1 =
      loopRun nineteenArrivals ∧
    (loopStepAct (loopRun nineteenArrivals) (.arrive 100 true)).2 =
      [LoopAct.closeConn 100] := by
  decide

/-- Claim C6 as amended: when registering a just-accepted connection
fails, that connection is closed, but the failure is fatal to the
readiness loop: the loop also closes the readiness registry and returns
(accept_loop lines 250-255 close the epoll descriptor and return). -/
theorem c6_register_failure_fatal (s : LoopState) (fd : Nat)
    (halive : s.alive = true) (hroom : s.count + 1 < MAX_CHILD) :
    loopStepAct s (.arrive fd false) =
      ({ s with alive := false },
       [LoopAct.closeConn fd, LoopAct.closeRegistry]) := by
  have hne : ¬ s.alive = false := by simp [halive]
  rw [loopStepAct_arrive _ _ _ hne, if_neg (by omega),
    if_neg (show ¬ (false = true) by decide)]

/-- Witness for the amended claim C6 at the freshly started loop. -/
theorem c6_register_failure_fatal_w :
    initLoop.alive = true ∧ initLoop.count + 1 < MAX_CHILD ∧
    loopStepAct initLoop (.arrive 7 false) =
      ({ initLoop with alive := false },
       [LoopAct.closeConn 7, LoopAct.closeRegistry]) :=
  ⟨rfl, by decide, c6_register_failure_fatal initLoop 7 rfl (by decide)⟩

/-- Claim C6, counterexample: a registration failure for a just-accepted
connection stops the readiness loop (accept_loop lines 250-255 execute
close(epollfd); return), contradicting the claim that the loop always
continues running. -/
theorem c6_loop_dies_cex :
    (loopStepAct initLoop (.arrive 7 false)).1.alive = false := by
  decide

/-- Outcome selected by the readiness loop for one recv result. -/
inductive ReadAction where
  | teardown
  | enqueueData
  | retry
deriving DecidableEq

/-- accept_loop lines 281-315: the switch on the recv result.  A result of
-1 falls through into the EOF case and tears the connection down, 0 tears
down, anything else enqueues.  The interrupted flag (errno == EINTR) is
not consulted: the recv path has no interruption check (the only EINTR
test, line 227, is on the accept path). -/
def readActionE (len : Int) (interrupted : Bool) : ReadAction :=
  if len = -1 then ReadAction.teardown
  else if len = 0 then ReadAction.teardown
  else ReadAction.enqueueData

/-- Modeled from the spec wording, for comparison with readActionE: an
interrupted read is retried silently and never torn down; otherwise a zero
or negative result tears down and a positive one enqueues. -/
def specReadAction (len : Int) (interrupted : Bool) : ReadAction :=
  if len < 0 ∧ interrupted = true then ReadAction.retry
  else if len ≤ 0 then ReadAction.teardown
  else ReadAction.enqueueData

/-- Claim C4, counterexample: an interrupted read (recv result -1 with
errno = EINTR) is torn down by the code, while the claim prescribes a
silent retry; the code's action differs from the claimed one. -/
theorem c4_interrupted_read_cex :
    readActionE (-1) true = ReadAction.teardown ∧
    specReadAction (-1) true = ReadAction.retry ∧
    readActionE (-1) true ≠ specReadAction (-1) true := by
  decide

/-- Claim C4 as amended: for the recv results the call can produce (at
least -1), the loop tears the connection down exactly when the result is
0 or negative — including an interrupted read, since the read path never
distinguishes interruption (only the accept path does, line 227). -/
theorem c4_teardown_iff (len : Int) (interrupted : Bool) (h : -1 ≤ len) :
    (readActionE len interrupted = ReadAction.teardown ↔ len ≤ 0) ∧
    readActionE len interrupted = readActionE len false := by
  constructor
  · constructor
    · intro ht
      by_cases h1 : len = -1
      · omega
      · by_cases h2 : len = 0
        · omega
        · simp [readActionE, h1, h2] at ht
    · intro hle
      have h01 : len = -1 ∨ len = 0 := by omega
      rcases h01 with h1 | h1 <;> simp [readActionE, h1]
  · by_cases h1 : len = -1 <;> by_cases h2 : len = 0 <;>
      simp [readActionE, h1, h2]

/-- Witness for the amended claim C4 at the interrupted error result. -/
theorem c4_teardown_iff_w :
    (-1 : Int) ≤ -1 ∧
    ((readActionE (-1) true = ReadAction.teardown ↔ (-1 : Int) ≤ 0) ∧
      readActionE (-1) true = readActionE (-1) false) :=
  ⟨by decide, c4_teardown_iff (-1) true (by decide)⟩

/-- recv is invoked with the full buffer size sizeof(buf) = 512
(accept_loop lines 274-278), so its result ranges over -1 .. BUFSZ. -/
def recvReturnPossible (n : Int) : Bool :=
  decide (-1 ≤ n) && decide (n ≤ (BUFSZ : Int))

/-- accept_loop lines 281-314: the switch enqueues exactly when the recv
result is neither -1 nor 0. -/
def enqueuedLen (n : Int) : Bool := !(decide (n = -1)) && !(decide (n = 0))

/-- send_thread line 405 stores a NUL at index len of the 512-byte payload
buffer; the store is within bounds exactly when len < BUFSZ. -/
def nulStoreInBounds (n : Int) : Bool := decide (n < (BUFSZ : Int))

/-- Claim C5 (code defect): a recv result of exactly BUFSZ = 512 is
possible (a peer sending at least 512 bytes fills the buffer), such an
entry is enqueued, and the worker's NUL store buf[len] then lands one past
the end of the 512-byte payload buffer — the byte count of a dequeued
entry is not always strictly below the buffer capacity, so the claimed
bound fails at len = 512. -/
theorem c5_full_read_nul_store_oob :
    recvReturnPossible (BUFSZ : Int) = true ∧
    enqueuedLen (BUFSZ : Int) = true ∧
    nulStoreInBounds (BUFSZ : Int) = false := by
  decide

/-- Observable effects of one send_thread iteration (lines 383-433). -/
structure WorkerEffect where
  table : LoopState
  q : queue
  sentMsgs : List (Nat × List Nat)
  loggedSendError : Bool
  conActs : List LoopAct

/-- One iteration of send_thread (lines 383-433): pop one entry if the
queue is nonempty, build and transmit the response, and on send failure
(result -1, lines 426-430) only log via perror; the connection table, the
readiness registry and the queue are untouched by the failure path (the
comment at line 432 records that no disconnect handling is performed). -/
def workerIter (s : LoopState) (q : queue) (sendResult : Int) : WorkerEffect :=
  match dequeue q with
  | none =>
      { table := s, q := q, sentMsgs := [], loggedSendError := false,
        conActs := [] }
  | some (ent, q2) =>
      { table := s, q := q2, sentMsgs := [(ent.acc, respond ent.buf)],
        loggedSendError := decide (sendResult = -1), conActs := [] }

/-- Claim C9 (confirmed): a failed send is logged and nothing else
happens: the worker closes no handle, deregisters nothing, performs no
connection actions at all, and leaves the queue and transmissions exactly
as a successful send would — the send result influences only the log
flag. -/
theorem c9_send_failure_no_teardown (s : LoopState) (q : queue) (r : Int) :
    (workerIter s q r).table = s ∧
    (workerIter s q r).conActs = [] ∧
    (workerIter s q r).q = (workerIter s q 0).q ∧
    (workerIter s q r).sentMsgs = (workerIter s q 0).sentMsgs ∧
    ((workerIter s q r).loggedSendError = true ↔
      (r = -1 ∧ (dequeue q).isSome = true)) := by
  cases hdq : dequeue q with
  | none => simp [workerIter, hdq]
  | some pr =>
    obtain ⟨ent, q2⟩ := pr
    simp [workerIter, hdq]

/-- accept_loop line 266: the shard (queue index) of a connection is its
descriptor modulo the number of sender threads. -/
def shardOf (fd : Nat) : Nat := fd % MAXSENDER

/-- The queue_data entry built for one completed read of a connection
(accept_loop lines 272-278). -/
def entryOf (fd : Nat) (p : List Nat) : queue_data :=
  { acc := fd, buf := p, len := (p.length : Int) }

/-- Interleaved events of the system: the readiness loop completes a read
of payload p on connection fd, or the sender thread of queue qi runs one
iteration (pop and transmit if its queue is nonempty). -/
inductive Ev where
  | recvData (fd : Nat) (payload : List Nat)
  | popSend (qi : Nat)
deriving DecidableEq

/-- Global state: the per-shard queues and the ordered log of transmitted
responses (connection, bytes). -/
structure Sys where
  shards : Nat → queue
  sent : List (Nat × List Nat)

/-- All queues zero-initialized, nothing transmitted. -/
def initSys : Sys := { shards := fun _ => emptyQueue, sent := [] }

/-- One interleaving step.  A completed read enqueues into the shard
selected by shardOf (accept_loop lines 260-314); a sender iteration pops
its queue front if nonempty and transmits the response built from the
entry (send_thread lines 383-433). -/
def sysStep (s : Sys) (e : Ev) : Sys :=
  match e with
  | .recvData fd p =>
      { s with shards := fun j =>
          if j = shardOf fd then enqueue (entryOf fd p) (s.shards (shardOf fd))
          else s.shards j }
  | .popSend qi =>
      match dequeue (s.shards qi) with
      | some (ent, q2) =>
          { shards := fun j => if j = qi then q2 else s.shards j,
            sent := s.sent ++ [(ent.acc, respond ent.buf)] }
      | none => s

def sysRun (evs : List Ev) : Sys := evs.foldl sysStep initSys

/-- Responses transmitted to connection fd, in transmission order. -/
def sentList (fd : Nat) : List (Nat × List Nat) → List (List Nat)
  | [] => []
  | pr :: rest => (if pr.1 == fd then [pr.2] else []) ++ sentList fd rest

def sentFor (fd : Nat) (s : Sys) : List (List Nat) := sentList fd s.sent

/-- Payloads read from connection fd, in read order. -/
def reqsFor (fd : Nat) : List Ev → List (List Nat)
  | [] => []
  | Ev.recvData f p :: evs => (if f == fd then [p] else []) ++ reqsFor fd evs
  | Ev.popSend _ :: evs => reqsFor fd evs

/-- Ghost queue contents: append one entry at the back of shard
(shardOf fd). -/
def pushPend (pend : Nat → List queue_data) (fd : Nat) (p : List Nat) :
    Nat → List queue_data :=
  fun j => if j = shardOf fd then pend (shardOf fd) ++ [entryOf fd p] else pend j

/-- Ghost queue contents: replace shard qi by the given tail. -/
def popPendAt (pend : Nat → List queue_data) (qi : Nat)
    (rest : List queue_data) : Nat → List queue_data :=
  fun j => if j = qi then rest else pend j

/-- Occupancy check along a trace: every enqueue must find its shard's
ghost queue with room to spare (occupancy + 1 strictly below the
capacity), so that the ring indices never wrap onto pending entries. -/
def boundedRun (pend : Nat → List queue_data) : List Ev → Bool
  | [] => true
  | Ev.recvData fd p :: evs =>
      if (pend (shardOf fd)).length + 1 < MAXQUEUESZ then
        boundedRun (pushPend pend fd p) evs
      else false
  | Ev.popSend qi :: evs =>
      match pend qi with
      | [] => boundedRun pend evs
      | _ :: rest => boundedRun (popPendAt pend qi rest) evs

/-- Responses the FIFO ghost model emits for connection fd along the
trace. -/
def specSends (fd : Nat) (pend : Nat → List queue_data) :
    List Ev → List (List Nat)
  | [] => []
  | Ev.recvData f p :: evs => specSends fd (pushPend pend f p) evs
  | Ev.popSend qi :: evs =>
      match pend qi with
      | [] => specSends fd pend evs
      | ent :: rest =>
          (if ent.acc == fd then [respond ent.buf] else []) ++
            specSends fd (popPendAt pend qi rest) evs

/-- Refinement relation between a ring queue and its ghost contents: the
indices are in range, last sits pend.length slots after front, and the
slots from front onward hold exactly the pending entries. -/
def pendingInv (q : queue) (pend : List queue_data) : Prop :=
  q.front < MAXQUEUESZ ∧ pend.length < MAXQUEUESZ ∧
  q.last = (q.front + pend.length) % MAXQUEUESZ ∧
  ∀ k, k < pend.length →
    q.data ((q.front + k) % MAXQUEUESZ) = pend.getD k default

theorem pendingInv_empty : pendingInv emptyQueue [] := by
  refine ⟨by decide, by decide, by decide, ?_⟩
  intro k hk
  simp at hk

/-- Every entry sitting in a ghost queue belongs to that shard. -/
def pendGood (pend : Nat → List queue_data) : Prop :=
  ∀ j, ∀ e ∈ pend j, shardOf e.acc = j

theorem getD_append_length (l : List queue_data) (a : queue_data)
    (d : queue_data) : (l ++ [a]).getD l.length d = a := by
  induction l with
  | nil => rfl
  | cons b tl ih => simpa using ih

theorem getD_append_lt (l : List queue_data) (a : queue_data)
    (d : queue_data) (k : Nat) (h : k < l.length) :
    (l ++ [a]).getD k d = l.getD k d := by
  induction l generalizing k with
  | nil => simp at h
  | cons b tl ih =>
    cases k with
    | zero => rfl
    | succ m =>
      have hm : m < tl.length := by
        simp only [List.length_cons] at h
        omega
      simpa using ih m hm

/-- A producer step with room to spare extends the ghost contents at the
back. -/
theorem enqueue_pendingInv {q : queue} {pend : List queue_data}
    (h : pendingInv q pend) (e : queue_data)
    (hroom : pend.length + 1 < MAXQUEUESZ) :
    pendingInv (enqueue e q) (pend ++ [e]) := by
  obtain ⟨hf, hlen, hlast, hdata⟩ := h
  have hC : 0 < MAXQUEUESZ := by decide
  refine ⟨hf, ?_, ?_, ?_⟩
  · simp only [List.length_append, List.length_cons, List.length_nil]
    omega
  · show QUEUE_NEXT q.last = _
    rw [QUEUE_NEXT, hlast, Nat.mod_add_mod]
    simp only [List.length_append, List.length_cons, List.length_nil]
    congr 1
  · intro k hk
    simp only [List.length_append, List.length_cons, List.length_nil] at hk
    by_cases hke : k = pend.length
    · subst hke
      have hslot : (q.front + pend.length) % MAXQUEUESZ = q.last := hlast.symm
      show (if (q.front + pend.length) % MAXQUEUESZ = q.last then e
        else q.data ((q.front + pend.length) % MAXQUEUESZ)) = _
      rw [if_pos hslot, getD_append_length]
    · have hklt : k < pend.length := by omega
      have hne : (q.front + k) % MAXQUEUESZ ≠ q.last := by
        rw [hlast]
        intro hcontra
        exact hke (mod_window_inj hf (by omega) hlen hcontra)
      show (if (q.front + k) % MAXQUEUESZ = q.last then e
        else q.data ((q.front + k) % MAXQUEUESZ)) = _
      rw [if_neg hne, hdata k hklt, getD_append_lt _ _ _ _ hklt]

/-- A consumer step on an empty ghost queue finds the ring empty. -/
theorem dequeue_pendingInv_nil {q : queue} (h : pendingInv q []) :
    dequeue q = none := by
  obtain ⟨hf, _, hlast, _⟩ := h
  have heq : q.last = q.front := by
    rw [hlast]
    simp [Nat.mod_eq_of_lt hf]
  have hcond : ¬ (q.last ≠ q.front) := fun hco => hco heq
  rw [dequeue, if_neg hcond]

/-- A consumer step on a nonempty ghost queue pops exactly its head and
the ghost tail remains related. -/
theorem dequeue_pendingInv_cons {q : queue} {ent : queue_data}
    {rest : List queue_data} (h : pendingInv q (ent :: rest)) :
    dequeue q = some (ent, { q with front := QUEUE_NEXT q.front }) ∧
    pendingInv { q with front := QUEUE_NEXT q.front } rest := by
  obtain ⟨hf, hlen, hlast, hdata⟩ := h
  have hC : 0 < MAXQUEUESZ := by decide
  have hlen' : rest.length + 1 < MAXQUEUESZ := by
    simpa [List.length_cons] using hlen
  have hne : q.last ≠ q.front := by
    rw [hlast]
    intro hcontra
    rw [List.length_cons] at hcontra
    have hfront0 : q.front = (q.front + 0) % MAXQUEUESZ := by
      simp [Nat.mod_eq_of_lt hf]
    nth_rewrite 2 [hfront0] at hcontra
    have hk := mod_window_inj hf hlen' hC hcontra
    omega
  have hhead : q.data q.front = ent := by
    have h0 := hdata 0 (by simp [List.length_cons])
    have hfront : (q.front + 0) % MAXQUEUESZ = q.front := by
      simp [Nat.mod_eq_of_lt hf]
    rw [hfront] at h0
    simpa using h0
  constructor
  · rw [dequeue, if_pos hne, hhead]
  · refine ⟨Nat.mod_lt _ hC, by omega, ?_, ?_⟩
    · show q.last = ((q.front + 1) % MAXQUEUESZ + rest.length) % MAXQUEUESZ
      rw [hlast, Nat.mod_add_mod]
      simp only [List.length_cons]
      congr 1
      omega
    · intro k hk
      show q.data (((q.front + 1) % MAXQUEUESZ + k) % MAXQUEUESZ) = _
      rw [Nat.mod_add_mod]
      have harr : q.front + 1 + k = q.front + (k + 1) := by omega
      rw [harr, hdata (k + 1) (by simp [List.length_cons]; omega)]
      simp

theorem sysStep_recvData (s : Sys) (f : Nat) (p : List Nat) :
    sysStep s (.recvData f p) =
      { s with shards := fun j =>
          if j = shardOf f then enqueue (entryOf f p) (s.shards (shardOf f))
          else s.shards j } := rfl

theorem sysStep_pop_none {s : Sys} {qi : Nat}
    (h : dequeue (s.shards qi) = none) : sysStep s (.popSend qi) = s := by
  simp [sysStep, h]

theorem sysStep_pop_some {s : Sys} {qi : Nat} {ent : queue_data} {q2 : queue}
    (h : dequeue (s.shards qi) = some (ent, q2)) :
    sysStep s (.popSend qi) =
      { shards := fun j => if j = qi then q2 else s.shards j,
        sent := s.sent ++ [(ent.acc, respond ent.buf)] } := by
  simp [sysStep, h]

theorem sentList_append (fd : Nat) (a b : List (Nat × List Nat)) :
    sentList fd (a ++ b) = sentList fd a ++ sentList fd b := by
  induction a with
  | nil => rfl
  | cons pr rest ih => simp [sentList, ih]

/-- Forward simulation: as long as the occupancy check holds along the
trace, the ring queues of the code behave exactly like the FIFO ghost
queues, and the transmissions appended by the run are the ghost
emissions. -/
theorem sysSim (evs : List Ev) : ∀ (s : Sys) (pend : Nat → List queue_data),
    (∀ j, pendingInv (s.shards j) (pend j)) →
    boundedRun pend evs = true →
    ∀ fd, sentList fd (evs.foldl sysStep s).sent =
      sentList fd s.sent ++ specSends fd pend evs := by
  induction evs with
  | nil =>
    intro s pend hinv hb fd
    simp [specSends]
  | cons ev rest ih =>
    intro s pend hinv hb fd
    cases ev with
    | recvData f p =>
      simp only [boundedRun] at hb
      by_cases hroom : (pend (shardOf f)).length + 1 < MAXQUEUESZ
      · rw [if_pos hroom] at hb
        have hinv' : ∀ j,
            pendingInv ((sysStep s (.recvData f p)).shards j)
              (pushPend pend f p j) := by
          intro j
          rw [sysStep_recvData]
          by_cases hj : j = shardOf f
          · simp only [hj, pushPend, if_pos rfl]
            exact enqueue_pendingInv (hinv (shardOf f)) _ hroom
          · simp only [pushPend, if_neg hj]
            exact hinv j
        have hsent : (sysStep s (.recvData f p)).sent = s.sent := rfl
        rw [List.foldl_cons,
          ih (sysStep s (.recvData f p)) (pushPend pend f p) hinv' hb fd,
          hsent]
        simp only [specSends]
      · rw [if_neg hroom] at hb
        exact absurd hb (by simp)
    | popSend qi =>
      cases hp : pend qi with
      | nil =>
        have hdq := dequeue_pendingInv_nil (hp ▸ hinv qi)
        have hstep : sysStep s (.popSend qi) = s := sysStep_pop_none hdq
        simp only [boundedRun, hp] at hb
        rw [List.foldl_cons, hstep, ih s pend hinv hb fd]
        simp only [specSends, hp]
      | cons ent others =>
        have hinvqi := hinv qi
        rw [hp] at hinvqi
        obtain ⟨hdq, hinv2⟩ := dequeue_pendingInv_cons hinvqi
        have hstep := sysStep_pop_some hdq
        have hinv' : ∀ j,
            pendingInv ((sysStep s (.popSend qi)).shards j)
              (popPendAt pend qi others j) := by
          intro j
          rw [hstep]
          by_cases hj : j = qi
          · simp only [hj, popPendAt, if_pos rfl]
            exact hinv2
          · simp only [popPendAt, if_neg hj]
            exact hinv j
        simp only [boundedRun, hp] at hb
        rw [List.foldl_cons,
          ih (sysStep s (.popSend qi)) (popPendAt pend qi others) hinv' hb fd,
          hstep]
        simp only [specSends, hp, sentList_append]
        have hone : sentList fd [(ent.acc, respond ent.buf)] =
            if ent.acc == fd then [respond ent.buf] else [] := by
          by_cases hacc : (ent.acc == fd) = true <;>
            simp [sentList, hacc]
        rw [hone, List.append_assoc]

/-- Responses owed to connection fd among a ghost queue's pending
entries, in queue order. -/
def pendResp (fd : Nat) : List queue_data → List (List Nat)
  | [] => []
  | ent :: rest =>
      (if ent.acc == fd then [respond ent.buf] else []) ++ pendResp fd rest

theorem pendResp_append (fd : Nat) (l : List queue_data) (e : queue_data) :
    pendResp fd (l ++ [e]) =
      pendResp fd l ++ (if e.acc == fd then [respond e.buf] else []) := by
  induction l with
  | nil => simp [pendResp]
  | cons b tl ih => simp [pendResp, ih]

/-- FIFO order on the ghost side: what the ghost model emits for a
connection is an initial segment of the responses owed for its pending
entries followed by its reads, in order. -/
theorem specSends_order (evs : List Ev) :
    ∀ (pend : Nat → List queue_data) (fd : Nat), pendGood pend →
    ∃ t, specSends fd pend evs ++ t =
      pendResp fd (pend (shardOf fd)) ++ (reqsFor fd evs).map respond := by
  induction evs with
  | nil =>
    intro pend fd hg
    exact ⟨pendResp fd (pend (shardOf fd)), by simp [specSends, reqsFor]⟩
  | cons ev rest ih =>
    intro pend fd hg
    cases ev with
    | recvData f p =>
      have hg' : pendGood (pushPend pend f p) := by
        intro j e he
        rw [pushPend] at he
        by_cases hj : j = shardOf f
        · rw [if_pos hj] at he
          rcases List.mem_append.mp he with hold | hnew
          · rw [hj]
            exact hg (shardOf f) e hold
          · have he2 : e = entryOf f p := by simpa using hnew
            rw [he2, hj]
            rfl
        · rw [if_neg hj] at he
          exact hg j e he
      obtain ⟨t, ht⟩ := ih (pushPend pend f p) fd hg'
      refine ⟨t, ?_⟩
      simp only [specSends]
      rw [ht]
      by_cases hffd : (f == fd) = true
      · have hfeq : f = fd := beq_iff_eq.mp hffd
        subst hfeq
        simp only [pushPend, if_pos rfl, pendResp_append, reqsFor, hffd,
          if_true, entryOf, List.map_append, List.map_cons, List.map_nil]
        simp [List.append_assoc]
      · by_cases hsh : shardOf fd = shardOf f
        · rw [show pushPend pend f p (shardOf fd) =
              pend (shardOf f) ++ [entryOf f p] by
            simp [pushPend, hsh]]
          rw [pendResp_append]
          have hacc2 : ((entryOf f p).acc == fd) = false := by
            simp only [entryOf]
            exact (Bool.not_eq_true _).mp (fun hco => by
              rw [hco] at hffd
              exact absurd hffd (by simp))
          rw [hacc2]
          simp only [if_false, List.append_nil, reqsFor, hffd,
            Bool.false_eq_true, List.nil_append, hsh]
        · rw [show pushPend pend f p (shardOf fd) = pend (shardOf fd) by
            simp [pushPend, hsh]]
          simp only [reqsFor, hffd, Bool.false_eq_true, if_false,
            List.nil_append]
    | popSend qi =>
      cases hp : pend qi with
      | nil =>
        obtain ⟨t, ht⟩ := ih pend fd hg
        refine ⟨t, ?_⟩
        simp only [specSends, hp, reqsFor]
        exact ht
      | cons ent others =>
        have hqi : shardOf ent.acc = qi :=
          hg qi ent (by rw [hp]; exact List.mem_cons_self _ _)
        have hg' : pendGood (popPendAt pend qi others) := by
          intro j e he
          rw [popPendAt] at he
          by_cases hj : j = qi
          · rw [if_pos hj] at he
            rw [hj]
            exact hg qi e (by rw [hp]; exact List.mem_cons_of_mem _ he)
          · rw [if_neg hj] at he
            exact hg j e he
        obtain ⟨t, ht⟩ := ih (popPendAt pend qi others) fd hg'
        refine ⟨t, ?_⟩
        simp only [specSends, hp, reqsFor]
        by_cases hacc : (ent.acc == fd) = true
        · have hfd : ent.acc = fd := beq_iff_eq.mp hacc
          have hshfd : shardOf fd = qi := by rw [← hfd, hqi]
          rw [if_pos hacc, hshfd, hp]
          have hpop : popPendAt pend qi others (shardOf fd) = others := by
            simp [popPendAt, hshfd]
          rw [hpop] at ht
          have hpr : pendResp fd (ent :: others) =
              [respond ent.buf] ++ pendResp fd others := by
            simp [pendResp, hacc]
          rw [hpr]
          simp only [List.append_assoc]
          rw [ht]
        · rw [if_neg hacc]
          by_cases hshfd : shardOf fd = qi
          · rw [hshfd, hp]
            have hpop : popPendAt pend qi others (shardOf fd) = others := by
              simp [popPendAt, hshfd]
            rw [hpop] at ht
            have hpr : pendResp fd (ent :: others) = pendResp fd others := by
              simp [pendResp, hacc]
            rw [hpr]
            exact ht
          · have hpop : popPendAt pend qi others (shardOf fd) =
                pend (shardOf fd) := by
              simp [popPendAt, hshfd]
            rw [hpop] at ht
            exact ht

/-- Claim C8 as amended: provided the occupancy check holds along the
trace (no shard's queue is driven to its wrap-around point — the code has
no such check, so this is a proviso the claim needs), the responses
transmitted to a connection are exactly its requests, in read order,
mapped through the response transformation, up to however many its shard's
worker has popped so far. -/
theorem c8_fifo_per_connection (evs : List Ev)
    (hb : boundedRun (fun _ => []) evs = true) (fd : Nat) :
    sentFor fd (sysRun evs) =
      ((reqsFor fd evs).map respond).take (sentFor fd (sysRun evs)).length := by
  have hinv : ∀ j, pendingInv (initSys.shards j) ((fun _ => ([] : List queue_data)) j) :=
    fun _ => pendingInv_empty
  have hsim := sysSim evs initSys (fun _ => []) hinv hb fd
  obtain ⟨t, ht⟩ := specSends_order evs (fun _ => []) fd
    (fun j e he => absurd he (List.not_mem_nil e))
  have hres : sentFor fd (sysRun evs) = specSends fd (fun _ => []) evs := by
    rw [sentFor, sysRun, hsim]
    simp [sentList]
  simp only [pendResp, List.nil_append] at ht
  rw [hres, ← ht, take_len_append _ _ _ rfl]

/-- Witness for the amended claim C8 on a one-request trace. -/
theorem c8_fifo_per_connection_w :
    boundedRun (fun _ => []) [Ev.recvData 0 [104], Ev.popSend 0] = true ∧
    sentFor 0 (sysRun [Ev.recvData 0 [104], Ev.popSend 0]) =
      ((reqsFor 0 [Ev.recvData 0 [104], Ev.popSend 0]).map respond).take
        (sentFor 0 (sysRun [Ev.recvData 0 [104], Ev.popSend 0])).length :=
  ⟨by decide, c8_fifo_per_connection [Ev.recvData 0 [104], Ev.popSend 0]
    (by decide) 0⟩

/-- A block of completed reads that all hit shard 0 transmits nothing and
acts on shard 0 as the corresponding sequence of producer steps. -/
theorem foldRecvs (ps : List (Nat × List Nat)) : ∀ (s : Sys),
    (∀ pr ∈ ps, shardOf pr.1 = 0) →
    ((ps.map (fun pr => Ev.recvData pr.1 pr.2)).foldl sysStep s).sent =
      s.sent ∧
    ((ps.map (fun pr => Ev.recvData pr.1 pr.2)).foldl sysStep s).shards 0 =
      enqueueAll (ps.map (fun pr => entryOf pr.1 pr.2)) (s.shards 0) := by
  induction ps with
  | nil => intro s _; exact ⟨rfl, rfl⟩
  | cons pr rest ih =>
    intro s h
    have h0 : shardOf pr.1 = 0 := h pr (List.mem_cons_self _ _)
    have hrest := ih (sysStep s (.recvData pr.1 pr.2))
      (fun x hx => h x (List.mem_cons_of_mem _ hx))
    simp only [List.map_cons, List.foldl_cons]
    refine ⟨by rw [hrest.1]; rfl, ?_⟩
    rw [hrest.2]
    have hsh : (sysStep s (.recvData pr.1 pr.2)).shards 0 =
        enqueue (entryOf pr.1 pr.2) (s.shards 0) := by
      rw [sysStep_recvData]
      simp [h0]
    rw [hsh, enqueueAll_cons]

theorem reqsFor_append (fd : Nat) (a b : List Ev) :
    reqsFor fd (a ++ b) = reqsFor fd a ++ reqsFor fd b := by
  induction a with
  | nil => rfl
  | cons e tl ih =>
    cases e with
    | recvData f p => simp [reqsFor, ih, List.append_assoc]
    | popSend qi => simp [reqsFor, ih]

theorem reqsFor_replicate_ne (fd f : Nat) (p : List Nat)
    (h : (f == fd) = false) (n : Nat) :
    reqsFor fd (List.replicate n (Ev.recvData f p)) = [] := by
  induction n with
  | zero => rfl
  | succ m ih => simp [List.replicate_succ, reqsFor, h, ih]

/-- First request of connection 0 in the overflow interleaving. -/
def pA : List Nat := [104]

/-- Second request of connection 0 in the overflow interleaving. -/
def pA2 : List Nat := [105]

/-- Request repeatedly sent by connection 2 (same shard as connection 0). -/
def pB : List Nat := [66]

/-- The reads of the overflow interleaving: connection 0's first request,
then 4096 reads from connection 2 (same shard, slow worker), then
connection 0's second request. -/
def cexPairs : List (Nat × List Nat) :=
  (0, pA) :: (List.replicate (MAXQUEUESZ - 1) (2, pB) ++ [(2, pB), (0, pA2)])

/-- The full overflow interleaving: the reads above followed by three
iterations of shard 0's sender thread. -/
def cexEvs : List Ev :=
  cexPairs.map (fun pr => Ev.recvData pr.1 pr.2) ++
    [Ev.popSend 0, Ev.popSend 0, Ev.popSend 0]

/-- Entry for connection 0's first request. -/
def eA : queue_data := entryOf 0 pA

/-- Entry for connection 2's request (shard 0 as well). -/
def eB : queue_data := entryOf 2 pB

/-- Entry for connection 0's second request. -/
def eA2 : queue_data := entryOf 0 pA2

/-- The first MAXQUEUESZ entries of the overflow interleaving. -/
def fillE : List queue_data := eA :: List.replicate (MAXQUEUESZ - 1) eB

/-- Shard 0 after the first 4096 enqueues. -/
def qFill : queue := enqueueAll fillE emptyQueue

/-- Shard 0 after the 4097th enqueue (the wrap-around overwrite). -/
def qWrap : queue := enqueue eB qFill

/-- Shard 0 after the 4098th enqueue. -/
def qTwo : queue := enqueue eA2 qWrap

theorem fillE_length : fillE.length = MAXQUEUESZ := by
  rw [fillE, List.length_cons, List.length_replicate]
  decide

theorem qFill_facts :
    qFill.front = 0 ∧ qFill.last = 0 ∧ qFill.data 0 = eA ∧
      qFill.data 1 = eB := by
  have h0last : emptyQueue.last = 0 := rfl
  have hlt : emptyQueue.last < MAXQUEUESZ := by rw [h0last]; decide
  have hle : emptyQueue.last + fillE.length ≤ MAXQUEUESZ := by
    rw [h0last, fillE_length]
    omega
  have hspec := enqueueAll_spec fillE emptyQueue hlt hle
  have hrepl : List.replicate (MAXQUEUESZ - 1) eB =
      eB :: List.replicate (MAXQUEUESZ - 2) eB := by
    have h21 : MAXQUEUESZ - 1 = (MAXQUEUESZ - 2) + 1 := by decide
    rw [h21, List.replicate_succ]
  refine ⟨enqueueAll_front _ _, ?_, ?_, ?_⟩
  · rw [qFill] at *
    rw [hspec.1, h0last, fillE_length, Nat.zero_add, Nat.mod_self]
  · rw [qFill] at *
    rw [hspec.2 0, if_pos ?side1]
    case side1 =>
      rw [h0last, fillE_length]
      exact ⟨Nat.le_refl 0, by decide⟩
    rw [h0last, fillE]
    rfl
  · rw [qFill] at *
    rw [hspec.2 1, if_pos ?side2]
    case side2 =>
      rw [h0last, fillE_length]
      exact ⟨by omega, by decide⟩
    rw [h0last, fillE]
    show (eA :: List.replicate (MAXQUEUESZ - 1) eB).getD 1 default = eB
    rw [hrepl]
    rfl

theorem enqueue_front (e : queue_data) (q : queue) :
    (enqueue e q).front = q.front := rfl

theorem enqueue_data (e : queue_data) (q : queue) (j : Nat) :
    (enqueue e q).data j = if j = q.last then e else q.data j := rfl

theorem qTwo_facts :
    qTwo.front = 0 ∧ qTwo.last = 2 ∧ qTwo.data 0 = eB ∧
      qTwo.data 1 = eA2 := by
  obtain ⟨hf, hl, hd0, hd1⟩ := qFill_facts
  have hwf : qWrap.front = 0 := by
    show (enqueue eB qFill).front = 0
    rw [enqueue_front]
    exact hf
  have hwl : qWrap.last = 1 := by
    show QUEUE_NEXT qFill.last = 1
    rw [hl]
    decide
  have hwd0 : qWrap.data 0 = eB := by
    have h1 : qWrap.data 0 = if 0 = qFill.last then eB else qFill.data 0 :=
      enqueue_data eB qFill 0
    rw [h1, hl, if_pos rfl]
  have hqf : qTwo.front = 0 := by
    show (enqueue eA2 qWrap).front = 0
    rw [enqueue_front]
    exact hwf
  refine ⟨hqf, ?_, ?_, ?_⟩
  · show QUEUE_NEXT qWrap.last = 2
    rw [hwl]
    decide
  · have h2 : qTwo.data 0 = if 0 = qWrap.last then eA2 else qWrap.data 0 :=
      enqueue_data eA2 qWrap 0
    rw [h2, hwl, if_neg (by decide), hwd0]
  · have h3 : qTwo.data 1 = if 1 = qWrap.last then eA2 else qWrap.data 1 :=
      enqueue_data eA2 qWrap 1
    rw [h3, hwl, if_pos rfl]

/-- Shard 0 after the first sender iteration of the counterexample. -/
def qT1 : queue := { qTwo with front := QUEUE_NEXT qTwo.front }

/-- Shard 0 after the second sender iteration of the counterexample. -/
def qT2 : queue := { qT1 with front := QUEUE_NEXT qT1.front }

theorem cex_pops :
    dequeue qTwo = some (eB, qT1) ∧
    dequeue qT1 = some (eA2, qT2) ∧
    dequeue qT2 = none := by
  obtain ⟨hqf, hql, hqd0, hqd1⟩ := qTwo_facts
  have hT1front : qT1.front = 1 := by
    show QUEUE_NEXT qTwo.front = 1
    rw [hqf]
    decide
  have hT1last : qT1.last = 2 := hql
  have hT1data : ∀ j, qT1.data j = qTwo.data j := fun _ => rfl
  have hT2front : qT2.front = 2 := by
    show QUEUE_NEXT qT1.front = 2
    rw [hT1front]
    decide
  have hT2last : qT2.last = 2 := hql
  refine ⟨?_, ?_, ?_⟩
  · rw [dequeue, if_pos ?c1]
    case c1 =>
      rw [hql, hqf]
      decide
    have hdf : qTwo.data qTwo.front = eB := by
      rw [hqf]
      exact hqd0
    rw [hdf]
    rfl
  · rw [dequeue, if_pos ?c2]
    case c2 =>
      rw [hT1last, hT1front]
      decide
    have hd : qT1.data qT1.front = eA2 := by
      rw [hT1front, hT1data 1]
      exact hqd1
    rw [hd]
    rfl
  · rw [dequeue, if_neg]
    rw [hT2last, hT2front]
    decide

set_option maxRecDepth 10000 in
/-- Claim C8, counterexample: connection 0 sends two requests, connection
2 (same shard) floods 4096 reads in between with the worker stalled; the
wrap-around overwrites connection 0's first entry, and after the worker
drains the queue only the second request was answered: the first response
observed on connection 0 corresponds to its second request, so responses
are not transmitted in the order the requests were read. -/
theorem c8_reorder_cex :
    sentFor 0 (sysRun cexEvs) = [respond pA2] ∧
    reqsFor 0 cexEvs = [pA, pA2] ∧
    sentFor 0 (sysRun cexEvs) ≠
      ((reqsFor 0 cexEvs).map respond).take
        (sentFor 0 (sysRun cexEvs)).length := by
  have hsh : ∀ pr ∈ cexPairs, shardOf pr.1 = 0 := by
    intro pr hpr
    rw [cexPairs] at hpr
    rcases List.mem_cons.mp hpr with h1 | h1
    · rw [h1]; decide
    · rcases List.mem_append.mp h1 with h2 | h2
      · rw [List.eq_of_mem_replicate h2]; decide
      · rcases List.mem_cons.mp h2 with h3 | h3
        · rw [h3]; decide
        · rcases List.mem_cons.mp h3 with h4 | h4
          · rw [h4]; decide
          · simp at h4
  have hfold := foldRecvs cexPairs initSys hsh
  have hmapE : cexPairs.map (fun pr => entryOf pr.1 pr.2) =
      fillE ++ [eB, eA2] := by
    rw [cexPairs, fillE]
    simp [eA, eB, eA2, List.map_replicate]
  have hinitq : initSys.shards 0 = emptyQueue := rfl
  have hq0 : ((cexPairs.map (fun pr => Ev.recvData pr.1 pr.2)).foldl sysStep
      initSys).shards 0 = qTwo := by
    rw [hfold.2, hmapE, hinitq, enqueueAll_append]
    rfl
  have hsent1 : ((cexPairs.map (fun pr => Ev.recvData pr.1 pr.2)).foldl
      sysStep initSys).sent = [] := by
    rw [hfold.1]
    rfl
  obtain ⟨hdq1, hdq2, hdq3⟩ := cex_pops
  have hdqs1 : dequeue (((cexPairs.map (fun pr => Ev.recvData pr.1 pr.2)).foldl
      sysStep initSys).shards 0) = some (eB, qT1) := by
    rw [hq0]
    exact hdq1
  have hs2 := sysStep_pop_some hdqs1
  have hs2shards : ((sysStep ((cexPairs.map
      (fun pr => Ev.recvData pr.1 pr.2)).foldl sysStep initSys)
      (Ev.popSend 0)).shards) 0 = qT1 := by
    rw [hs2]
    rfl
  have hs2sent : (sysStep ((cexPairs.map
      (fun pr => Ev.recvData pr.1 pr.2)).foldl sysStep initSys)
      (Ev.popSend 0)).sent = [(2, respond pB)] := by
    rw [hs2]
    show ((cexPairs.map (fun pr => Ev.recvData pr.1 pr.2)).foldl
      sysStep initSys).sent ++ [(eB.acc, respond eB.buf)] = [(2, respond pB)]
    rw [hsent1]
    rfl
  have hdqs2 : dequeue ((sysStep ((cexPairs.map
      (fun pr => Ev.recvData pr.1 pr.2)).foldl sysStep initSys)
      (Ev.popSend 0)).shards 0) = some (eA2, qT2) := by
    rw [hs2shards]
    exact hdq2
  have hs3 := sysStep_pop_some hdqs2
  have hs3shards : ((sysStep (sysStep ((cexPairs.map
      (fun pr => Ev.recvData pr.1 pr.2)).foldl sysStep initSys)
      (Ev.popSend 0)) (Ev.popSend 0)).shards) 0 = qT2 := by
    rw [hs3]
    rfl
  have hs3sent : (sysStep (sysStep ((cexPairs.map
      (fun pr => Ev.recvData pr.1 pr.2)).foldl sysStep initSys)
      (Ev.popSend 0)) (Ev.popSend 0)).sent =
      [(2, respond pB), (0, respond pA2)] := by
    rw [hs3]
    show (sysStep ((cexPairs.map (fun pr => Ev.recvData pr.1 pr.2)).foldl
      sysStep initSys) (Ev.popSend 0)).sent ++ [(eA2.acc, respond eA2.buf)] =
      [(2, respond pB), (0, respond pA2)]
    rw [hs2sent]
    rfl
  have hdqs3 : dequeue ((sysStep (sysStep ((cexPairs.map
      (fun pr => Ev.recvData pr.1 pr.2)).foldl sysStep initSys)
      (Ev.popSend 0)) (Ev.popSend 0)).shards 0) = none := by
    rw [hs3shards]
    exact hdq3
  have hs4 := sysStep_pop_none hdqs3
  have hfinal : (sysRun cexEvs).sent = [(2, respond pB), (0, respond pA2)] := by
    rw [sysRun, cexEvs, List.foldl_append]
    simp only [List.foldl_cons, List.foldl_nil]
    rw [hs4]
    exact hs3sent
  have h1 : sentFor 0 (sysRun cexEvs) = [respond pA2] := by
    rw [sentFor, hfinal]
    have hb20 : ((2 : Nat) == 0) = false := by decide
    have hb00 : ((0 : Nat) == 0) = true := by decide
    simp [sentList, hb20, hb00]
  have hb20 : ((2 : Nat) == 0) = false := by decide
  have hmapEv : cexPairs.map (fun pr => Ev.recvData pr.1 pr.2) =
      Ev.recvData 0 pA :: (List.replicate (MAXQUEUESZ - 1)
        (Ev.recvData 2 pB) ++ [Ev.recvData 2 pB, Ev.recvData 0 pA2]) := by
    rw [cexPairs]
    rw [List.map_cons, List.map_append, List.map_replicate, List.map_cons,
      List.map_cons, List.map_nil]
  have h2 : reqsFor 0 cexEvs = [pA, pA2] := by
    rw [cexEvs, reqsFor_append, hmapEv]
    have hstep : reqsFor 0 (Ev.recvData 0 pA ::
        (List.replicate (MAXQUEUESZ - 1) (Ev.recvData 2 pB) ++
          [Ev.recvData 2 pB, Ev.recvData 0 pA2])) =
        [pA] ++ reqsFor 0 (List.replicate (MAXQUEUESZ - 1)
          (Ev.recvData 2 pB) ++ [Ev.recvData 2 pB, Ev.recvData 0 pA2]) := rfl
    rw [hstep, reqsFor_append, reqsFor_replicate_ne 0 2 pB hb20]
    rfl
  refine ⟨h1, h2, ?_⟩
  rw [h1, h2]
  decide
